import Mathlib

/-!
Verification of the command-palette ranking and recency engine
(src/vs/workbench/contrib/quickopen/browser/commandsHandler.ts).

The TypeScript source is embedded shallowly: the pipeline stages of
CommandsHandler.doGetResults (deduplication, label disambiguation, MRU
ranking, grouping) become pure functions over lists of candidate records,
CommandsHistory becomes explicit state passing, and the ES2019 stable
Array.prototype.sort is embedded as a stable insertion sort (for a
consistent comparator every stable sort produces the same list).
JavaScript truthiness of the looked-up counters is modelled explicitly:
a counter value 0 behaves like an absent counter in the comparator and
in the grouping stage, exactly as the source's `if (counterA)` tests do.
String.prototype.localeCompare is modelled as code-point comparison.
-/

namespace CommandsHandlerSpec

/-- A highlight span (IHighlight of quickOpenModel); `stop` stands for the
reserved word `end`. -/
structure IHighlight where
  start : Nat
  stop : Nat
deriving DecidableEq, Repr

/-- The fields of BaseCommandEntry that its constructor assigns
(commandsHandler.ts lines 235-263): `aliasText` stands for the private
field named alias (a reserved word here) returned by getDetail, and the
two highlight slots are what setHighlights receives. -/
structure BaseEntryData where
  commandId : String
  label : String
  labelLowercase : String
  aliasText : Option String
  labelHighlights : Option (List IHighlight)
  aliasHighlights : Option (List IHighlight)
deriving DecidableEq, Repr

/-- Character-wise lowercasing, the embedding of label.toLowerCase(). -/
def jsToLower (s : String) : String := String.mk (s.data.map Char.toLower)

/-- The BaseCommandEntry constructor (lines 241-263): `labelLowercase` is
label.toLowerCase(); if `label !== alias` the alias field is kept, otherwise
the alias field stays undefined and the alias highlights are nulled before
setHighlights. -/
def mkBaseCommandEntry (commandId label : String) (aliasText : Option String)
    (labelHighlights aliasHighlights : Option (List IHighlight)) : BaseEntryData :=
  if some label = aliasText then
    { commandId := commandId, label := label, labelLowercase := jsToLower label,
      aliasText := none, labelHighlights := labelHighlights, aliasHighlights := none }
  else
    { commandId := commandId, label := label, labelLowercase := jsToLower label,
      aliasText := aliasText, labelHighlights := labelHighlights,
      aliasHighlights := aliasHighlights }

/-- A candidate entry as the doGetResults pipeline sees it: getLabel(),
getGroupLabel(), getCommandId(), getDescription(), setShowBorder state. -/
structure CmdEntry where
  commandId : String
  label : String
  groupLabel : Option String
  description : Option String
  showBorder : Bool
deriving DecidableEq, Repr

/-- JavaScript template-literal rendering of a string-or-undefined value:
an undefined groupLabel is interpolated as the string "undefined". -/
def jsUndef : Option String → String
  | some s => s
  | none => "undefined"

/-- getSortLabel() returns the lowercased label (line 273). -/
def CmdEntry.sortLabel (e : CmdEntry) : String := jsToLower e.label

/-- The deduplication key of line 485: the template literal
label ++ groupLabel ++ commandId (string concatenation, not a tuple). -/
def dedupKey (e : CmdEntry) : String :=
  e.label ++ jsUndef e.groupLabel ++ e.commandId

/-- The label-clash key of line 490: label ++ groupLabel. -/
def clashKey (e : CmdEntry) : String :=
  e.label ++ jsUndef e.groupLabel

/-- Modelled from the spec: the `distinct` helper of vs/base/common/arrays
(not under src/) removes candidates whose key duplicates an earlier one,
preserving first-seen order; `seen` is the set of keys already kept. -/
def distinctAux {α : Type} (key : α → String) : List String → List α → List α
  | _, [] => []
  | seen, x :: xs =>
    if key x ∈ seen then distinctAux key seen xs
    else x :: distinctAux key (key x :: seen) xs

/-- Entry point of the deduplicating stage (line 485). -/
def distinctBy {α : Type} (key : α → String) (l : List α) : List α :=
  distinctAux key [] l

/-- The label-clash loop of lines 488-496: an entry whose clash key was
seen before gets its description set to its own commandId; otherwise the
key is added to the seen set and the entry is left unchanged. -/
def disambiguateAux : List String → List CmdEntry → List CmdEntry
  | _, [] => []
  | seen, e :: es =>
    if clashKey e ∈ seen then
      { e with description := some e.commandId } :: disambiguateAux seen es
    else
      e :: disambiguateAux (clashKey e :: seen) es

/-- The disambiguating stage (starts with an empty seen set). -/
def disambiguate (l : List CmdEntry) : List CmdEntry :=
  disambiguateAux [] l

/-- The counter the comparator actually acts on: peek's result filtered
through JavaScript truthiness (`if (counterA)`), so a 0 counter behaves
like an absent one. -/
def truthyCounter (peek : String → Option Nat) (e : CmdEntry) : Option Nat :=
  match peek e.commandId with
  | some n => if n = 0 then none else some n
  | none => none

/-- Lexicographic code-point comparison of character lists. -/
def charListCompare : List Char → List Char → Int
  | [], [] => 0
  | [], _ :: _ => -1
  | _ :: _, [] => 1
  | a :: as, b :: bs =>
    if a < b then -1 else if b < a then 1 else charListCompare as bs

/-- localeCompare modelled as code-point comparison returning -1, 0 or 1. -/
def strCompare (a b : String) : Int := charListCompare a.data b.data

/-- The ranking comparator of lines 499-517: both counters truthy decides
by the higher counter (equal truthy counters fall into the `: 1` branch);
a single truthy counter wins; otherwise lowercased labels are compared. -/
def mruCompare (peek : String → Option Nat) (a b : CmdEntry) : Int :=
  match truthyCounter peek a, truthyCounter peek b with
  | some ca, some cb => if ca > cb then -1 else 1
  | some _, none => -1
  | none, some _ => 1
  | none, none => strCompare a.sortLabel b.sortLabel

/-- Stable insertion: x is placed before the first element y it does not
strictly follow (cmp x y ≤ 0), so an element inserted later in the fold
(earlier in the input) precedes its ties. -/
def insertCmp {α : Type} (cmp : α → α → Int) (x : α) : List α → List α
  | [] => [x]
  | y :: ys => if cmp x y ≤ 0 then x :: y :: ys else y :: insertCmp cmp x ys

/-- Embedding of the ES2019 (stable) Array.prototype.sort as a stable
insertion sort; for a consistent comparator every stable sort agrees. -/
def jsSort {α : Type} (cmp : α → α → Int) : List α → List α
  | [] => []
  | x :: xs => insertCmp cmp x (jsSort cmp xs)

/-- The ranking stage (line 499). -/
def rankStage (peek : String → Option Nat) (l : List CmdEntry) : List CmdEntry :=
  jsSort (mruCompare peek) l

/-- The loop of lines 524-531: walk the tail, leave truthy-counter entries
untouched, and at the first entry without a truthy counter set the border
and the "other commands" group label, leaving everything after unchanged. -/
def markOtherCommands (peek : String → Option Nat) : List CmdEntry → List CmdEntry
  | [] => []
  | e :: es =>
    if (truthyCounter peek e).isSome then e :: markOtherCommands peek es
    else { e with showBorder := true, groupLabel := some "other commands" } :: es

/-- The grouping stage of lines 519-532: only when the first entry has a
truthy counter is it labelled "recently used" and the tail scanned for the
border entry; otherwise the list is returned untouched. -/
def groupStage (peek : String → Option Nat) : List CmdEntry → List CmdEntry
  | [] => []
  | first :: rest =>
    if (truthyCounter peek first).isSome then
      { first with groupLabel := some "recently used" } :: markOtherCommands peek rest
    else first :: rest

/-- The process-wide state doGetResults may mutate: the remembered last
command-palette input (line 154, written at line 461). -/
structure PaletteState where
  lastCommandPaletteInput : Option String
deriving DecidableEq, Repr

/-- CommandsHandler.doGetResults (lines 453-535): an already-cancelled
token short-circuits to an empty model before the last-input write;
otherwise the trimmed search value is recorded and the aggregated entries
run through dedup, disambiguation, ranking and grouping. The aggregation
and fuzzy-filter stages live in external collaborators, so their output is
taken as the `entries` argument. -/
def doGetResults (peek : String → Option Nat) (cancelled : Bool) (searchValue : String)
    (entries : List CmdEntry) (st : PaletteState) : List CmdEntry × PaletteState :=
  if cancelled then ([], st)
  else
    let sv := searchValue.trim
    let deduped := distinctBy dedupKey entries
    let disamb := disambiguate deduped
    let ranked := rankStage peek disamb
    let grouped := groupStage peek ranked
    (grouped, { lastCommandPaletteInput := some sv })

/-- Modelled from the spec: the LRUCache of vs/base/common/map (not under
src/), per spec 4.1 and the data model: an ordered map in recency order
(least recently touched first) with a limit; set inserts or moves the key
to the most-recent position and evicts least-recent entries while the size
exceeds the limit; the evicted entries are returned alongside. -/
structure LRUModel where
  limit : Nat
  entries : List (String × Nat)
deriving DecidableEq, Repr

/-- Set with the trimmed-off (evicted) entries made explicit: the key is
moved to the most-recent end with the new value, then least-recent entries
are dropped down to the limit. -/
def LRUModel.setWithEvicted (c : LRUModel) (k : String) (v : Nat) :
    LRUModel × List (String × Nat) :=
  let touched := c.entries.filter (fun e => e.1 != k) ++ [(k, v)]
  let dropped := touched.length - c.limit
  ({ limit := c.limit, entries := touched.drop dropped }, touched.take dropped)

/-- Plain set, discarding the evicted entries. -/
def LRUModel.set (c : LRUModel) (k : String) (v : Nat) : LRUModel :=
  (c.setWithEvicted k v).1

/-- Non-mutating lookup. -/
def LRUModel.peek (c : LRUModel) (k : String) : Option Nat :=
  (c.entries.find? (fun e => e.1 == k)).map (fun e => e.2)

/-- The static state of CommandsHistory: the shared cache and counter. -/
structure HistoryState where
  cache : LRUModel
  counter : Nat
deriving DecidableEq, Repr

/-- CommandsHistory.push (lines 108-116): set the command to the current
counter, then advance the counter. -/
def CommandsHistory.push (s : HistoryState) (id : String) : HistoryState :=
  { cache := s.cache.set id s.counter, counter := s.counter + 1 }

/-- A freshly constructed history with the given capacity: empty cache,
counter starting at 1 (line 53). -/
def initHistory (capacity : Nat) : HistoryState :=
  { cache := { limit := capacity, entries := [] }, counter := 1 }

/-- Run a sequence of pushes. -/
def applyPushes (s : HistoryState) (ids : List String) : HistoryState :=
  ids.foldl CommandsHistory.push s

/-- The legacy-load sort of line 100: entries.sort((a, b) => a.value - b.value),
i.e. ascending by counter, through the same stable sort embedding. -/
def sortByValue (l : List (String × Nat)) : List (String × Nat) :=
  jsSort (fun a b => (a.2 : Int) - (b.2 : Int)) l

/-- CommandsHistory.load, lines 94-103: a fresh cache of the configured
capacity is filled from the serialized entries, in the given order when
usesLRU is set and in counter-ascending order otherwise. -/
def loadEntries (capacity : Nat) (usesLRU : Bool) (entries : List (String × Nat)) : LRUModel :=
  (if usesLRU then entries else sortByValue entries).foldl
    (fun c e => c.set e.1 e.2) { limit := capacity, entries := [] }

/-- The extension-readiness gate state of CommandsHandler:
waitedForExtensionsRegistered (line 414). -/
structure GateState where
  waitedForExtensionsRegistered : Bool
deriving DecidableEq, Repr

/-- CommandsHandler.getResults, lines 438-451, in discrete time: when the
flag is set the query proceeds immediately; otherwise it waits for
Promise.race([timeout(800), whenInstalledExtensionsRegistered]), which
resolves after min(readiness delay, 800) time units (or 800 when the
registry never becomes ready), and the flag is then set unconditionally.
Returns the time waited and the successor state. -/
def getResultsWait (s : GateState) (registryReadyIn : Option Nat) : Nat × GateState :=
  if s.waitedForExtensionsRegistered then (0, s)
  else
    (match registryReadyIn with
     | some t => min t 800
     | none => 800,
     { waitedForExtensionsRegistered := true })



/-- Concrete no-counter candidates used to witness the C1 comparator facts. -/
def c1x : CmdEntry :=
  { commandId := "x", label := "a", groupLabel := none, description := none, showBorder := false }

/-- Second C1 witness candidate. -/
def c1y : CmdEntry :=
  { commandId := "y", label := "b", groupLabel := none, description := none, showBorder := false }

/-- Third C1 witness candidate. -/
def c1z : CmdEntry :=
  { commandId := "z", label := "c", groupLabel := none, description := none, showBorder := false }

/-- The recency store lookups of the C5 example: candidate A has counter 5,
candidate B counter 9, everything else no counter. -/
def c5peek : String → Option Nat :=
  fun id => if id = "cmdA" then some 5 else if id = "cmdB" then some 9 else none

/-- C5 example candidate A (counter 5). -/
def c5A : CmdEntry :=
  { commandId := "cmdA", label := "Apply", groupLabel := none, description := none,
    showBorder := false }

/-- C5 example candidate B (counter 9). -/
def c5B : CmdEntry :=
  { commandId := "cmdB", label := "Build", groupLabel := none, description := none,
    showBorder := false }

/-- C5 example candidate C (no counter, label zeta). -/
def c5C : CmdEntry :=
  { commandId := "cmdC", label := "zeta", groupLabel := none, description := none,
    showBorder := false }

/-- C5 example candidate D (no counter, label alpha). -/
def c5D : CmdEntry :=
  { commandId := "cmdD", label := "alpha", groupLabel := none, description := none,
    showBorder := false }



/-- First C2 counterexample candidate: label Save, id file.save. -/
def c2first : CmdEntry :=
  { commandId := "file.save", label := "Save", groupLabel := none, description := none,
    showBorder := false }

/-- Second C2 counterexample candidate: label Save, id custom.save. -/
def c2second : CmdEntry :=
  { commandId := "custom.save", label := "Save", groupLabel := none, description := none,
    showBorder := false }

/-- The recency lookups of the C3 counterexample: entry a has counter 9,
entry b counter 5, entry c none, so [A, B, C] is in ranked order. -/
def c3peek : String → Option Nat :=
  fun id => if id = "a" then some 9 else if id = "b" then some 5 else none

/-- C3 counterexample entry with the highest counter. -/
def c3A : CmdEntry :=
  { commandId := "a", label := "A", groupLabel := none, description := none,
    showBorder := false }

/-- C3 counterexample entry with the middle counter. -/
def c3B : CmdEntry :=
  { commandId := "b", label := "B", groupLabel := none, description := none,
    showBorder := false }

/-- C3 counterexample entry without a counter. -/
def c3C : CmdEntry :=
  { commandId := "c", label := "C", groupLabel := none, description := none,
    showBorder := false }

/-- First C4 counterexample candidate: its concatenated dedup key is
x ++ undefined ++ undefinedy. -/
def c4first : CmdEntry :=
  { commandId := "undefinedy", label := "x", groupLabel := none, description := none,
    showBorder := false }

/-- Second C4 counterexample candidate: a different triple whose
concatenated dedup key is xundefined ++ undefined ++ y, the same string. -/
def c4second : CmdEntry :=
  { commandId := "y", label := "xundefined", groupLabel := none, description := none,
    showBorder := false }



/-- The invariant a push-reachable history satisfies: the limit is the
configured capacity, entries sit in recency order with strictly increasing
counters, every stored counter is below the next one to hand out, and the
size is within the capacity. -/
def HistoryInv (capacity : Nat) (s : HistoryState) : Prop :=
  s.cache.limit = capacity ∧
  s.cache.entries.Pairwise (fun a b => a.2 < b.2) ∧
  (∀ e ∈ s.cache.entries, e.2 < s.counter) ∧
  s.cache.entries.length ≤ capacity


/-! Helper lemmas about the stable-sort embedding. -/

theorem insertCmp_perm {α : Type} (cmp : α → α → Int) (x : α) :
    ∀ l : List α, List.Perm (insertCmp cmp x l) (x :: l)
  | [] => List.Perm.refl _
  | y :: ys => by
    unfold insertCmp
    by_cases h : cmp x y ≤ 0
    · simp [h]
    · simp only [if_neg h]
      exact ((insertCmp_perm cmp x ys).cons y).trans (List.Perm.swap x y ys)

theorem jsSort_perm {α : Type} (cmp : α → α → Int) :
    ∀ l : List α, List.Perm (jsSort cmp l) l
  | [] => List.Perm.refl _
  | x :: xs => (insertCmp_perm cmp x (jsSort cmp xs)).trans ((jsSort_perm cmp xs).cons x)

theorem mem_insertCmp {α : Type} {cmp : α → α → Int} {x a : α} {l : List α} :
    a ∈ insertCmp cmp x l ↔ a = x ∨ a ∈ l := by
  rw [(insertCmp_perm cmp x l).mem_iff, List.mem_cons]

theorem insertCmp_pairwise {α : Type} {cmp : α → α → Int}
    (htrans : ∀ a b c, cmp a b ≤ 0 → cmp b c ≤ 0 → cmp a c ≤ 0)
    (hflip : ∀ a b, ¬ cmp a b ≤ 0 → cmp b a ≤ 0) (x : α) :
    ∀ l : List α, l.Pairwise (fun a b => cmp a b ≤ 0) →
      (insertCmp cmp x l).Pairwise (fun a b => cmp a b ≤ 0)
  | [], _ => List.pairwise_singleton _ x
  | y :: ys, hp => by
    rw [List.pairwise_cons] at hp
    unfold insertCmp
    by_cases h : cmp x y ≤ 0
    · rw [if_pos h, List.pairwise_cons]
      refine ⟨?_, List.pairwise_cons.mpr hp⟩
      intro z hz
      rcases List.mem_cons.mp hz with hzy | hzys
      · exact hzy ▸ h
      · exact htrans x y z h (hp.1 z hzys)
    · rw [if_neg h, List.pairwise_cons]
      refine ⟨?_, insertCmp_pairwise htrans hflip x ys hp.2⟩
      intro z hz
      rcases mem_insertCmp.mp hz with hzx | hzys
      · exact hzx ▸ hflip x y h
      · exact hp.1 z hzys

theorem jsSort_pairwise {α : Type} {cmp : α → α → Int}
    (htrans : ∀ a b c, cmp a b ≤ 0 → cmp b c ≤ 0 → cmp a c ≤ 0)
    (hflip : ∀ a b, ¬ cmp a b ≤ 0 → cmp b a ≤ 0) :
    ∀ l : List α, (jsSort cmp l).Pairwise (fun a b => cmp a b ≤ 0)
  | [] => List.Pairwise.nil
  | x :: xs => insertCmp_pairwise htrans hflip x _ (jsSort_pairwise htrans hflip xs)

theorem insertCmp_filter_of_pos {α : Type} (cmp : α → α → Int) (p : α → Bool) (x : α)
    (hx : p x = true) (hstop : ∀ y, p y = true → cmp x y ≤ 0) :
    ∀ l : List α, (insertCmp cmp x l).filter p = x :: l.filter p
  | [] => by simp [insertCmp, hx]
  | y :: ys => by
    unfold insertCmp
    by_cases h : cmp x y ≤ 0
    · rw [if_pos h, List.filter_cons_of_pos hx]
    · have hy : p y = false := by
        cases hpy : p y
        · rfl
        · exact absurd (hstop y hpy) h
      rw [if_neg h, List.filter_cons_of_neg (by simp [hy]),
        insertCmp_filter_of_pos cmp p x hx hstop ys, List.filter_cons_of_neg (by simp [hy])]

theorem insertCmp_filter_of_neg {α : Type} (cmp : α → α → Int) (p : α → Bool) (x : α)
    (hx : p x = false) :
    ∀ l : List α, (insertCmp cmp x l).filter p = l.filter p
  | [] => by simp [insertCmp, hx]
  | y :: ys => by
    unfold insertCmp
    by_cases h : cmp x y ≤ 0
    · rw [if_pos h, List.filter_cons_of_neg (by simp [hx])]
    · cases hpy : p y
      · rw [if_neg h, List.filter_cons_of_neg (by simp [hpy]),
          insertCmp_filter_of_neg cmp p x hx ys, List.filter_cons_of_neg (by simp [hpy])]
      · rw [if_neg h, List.filter_cons_of_pos hpy,
          insertCmp_filter_of_neg cmp p x hx ys, List.filter_cons_of_pos hpy]

theorem jsSort_filter_stable {α : Type} (cmp : α → α → Int) (p : α → Bool)
    (hp : ∀ a b, p a = true → p b = true → cmp a b ≤ 0) :
    ∀ l : List α, (jsSort cmp l).filter p = l.filter p
  | [] => rfl
  | x :: xs => by
    unfold jsSort
    cases hx : p x
    · rw [insertCmp_filter_of_neg cmp p x hx, jsSort_filter_stable cmp p hp xs,
        List.filter_cons_of_neg (by simp [hx])]
    · rw [insertCmp_filter_of_pos cmp p x hx (fun y hy => hp x y hx hy),
        jsSort_filter_stable cmp p hp xs, List.filter_cons_of_pos hx]

/-! Claim theorems. -/

/-- C9: when the source descriptor supplies an alias equal to the label, the
constructed entry treats the alias as absent: the detail field (the alias
field returned by getDetail) stays unset and the alias highlight spans are
discarded, even when alias highlight spans were supplied. -/
theorem C9_alias_equal_label_suppressed (commandId label : String)
    (labelHighlights aliasHighlights : Option (List IHighlight)) :
    (mkBaseCommandEntry commandId label (some label) labelHighlights
      aliasHighlights).aliasText = none ∧
    (mkBaseCommandEntry commandId label (some label) labelHighlights
      aliasHighlights).aliasHighlights = none := by
  constructor <;> simp [mkBaseCommandEntry]

/-- C10: when the cancellation signal is already set at pipeline entry,
doGetResults returns the empty result and leaves the palette state (the
remembered last command-palette input) untouched: the cancelled query text
is not recorded. -/
theorem C10_cancelled_query_empty_and_pure (peek : String → Option Nat)
    (searchValue : String) (entries : List CmdEntry) (st : PaletteState) :
    doGetResults peek true searchValue entries st = ([], st) := rfl

/-- C8: before the one-time wait has happened, a query waits at most 800
time units (the race of the 800-unit timeout against registry readiness),
and after any completed query the flag is set, so every later query waits
zero time even when the registry is still not ready. -/
theorem C8_startup_wait_bounded_once :
    (∀ registryReadyIn : Option Nat,
      (getResultsWait { waitedForExtensionsRegistered := false } registryReadyIn).1 ≤ 800) ∧
    (∀ (s : GateState) (registryReadyIn registryReadyIn2 : Option Nat),
      (getResultsWait (getResultsWait s registryReadyIn).2 registryReadyIn2).1 = 0) := by
  constructor
  · intro r
    cases r with
    | none => simp [getResultsWait]
    | some t => simp [getResultsWait]
  · intro s r r2
    cases s with
    | mk b =>
      cases b <;> cases r <;> simp [getResultsWait]


theorem charListCompare_neg :
    ∀ a b : List Char, charListCompare a b = - charListCompare b a
  | [], [] => rfl
  | [], _ :: _ => rfl
  | _ :: _, [] => rfl
  | a :: as, b :: bs => by
    unfold charListCompare
    rcases lt_trichotomy a b with h | h | h
    · rw [if_pos h, if_neg (lt_asymm h), if_pos h]
    · subst h
      rw [if_neg (lt_irrefl a), if_neg (lt_irrefl a), if_neg (lt_irrefl a),
        if_neg (lt_irrefl a)]
      exact charListCompare_neg as bs
    · rw [if_neg (lt_asymm h), if_pos h, if_pos h]
      decide

theorem charListCompare_trans :
    ∀ a b c : List Char, charListCompare a b ≤ 0 → charListCompare b c ≤ 0 →
      charListCompare a c ≤ 0
  | [], _, [] => fun _ _ => by simp [charListCompare]
  | [], _, _ :: _ => fun _ _ => by simp [charListCompare]
  | _ :: _, [], _ => fun h1 _ => absurd h1 (by simp [charListCompare])
  | _ :: _, _ :: _, [] => fun _ h2 => absurd h2 (by simp [charListCompare])
  | a :: as, b :: bs, c :: cs => by
    intro h1 h2
    unfold charListCompare at h1 h2 ⊢
    rcases lt_trichotomy a b with hab | hab | hab
    · rcases lt_trichotomy b c with hbc | hbc | hbc
      · rw [if_pos (lt_trans hab hbc)]
        decide
      · subst hbc
        rw [if_pos hab]
        decide
      · rw [if_neg (lt_asymm hbc), if_pos hbc] at h2
        exact absurd h2 (by decide)
    · subst hab
      rw [if_neg (lt_irrefl a), if_neg (lt_irrefl a)] at h1
      rcases lt_trichotomy a c with hac | hac | hac
      · rw [if_pos hac]
        decide
      · subst hac
        rw [if_neg (lt_irrefl a), if_neg (lt_irrefl a)] at h2 ⊢
        exact charListCompare_trans as bs cs h1 h2
      · rw [if_neg (lt_asymm hac), if_pos hac] at h2
        exact absurd h2 (by decide)
    · rw [if_neg (lt_asymm hab), if_pos hab] at h1
      exact absurd h1 (by decide)

theorem charListCompare_self : ∀ a : List Char, charListCompare a a = 0
  | [] => rfl
  | a :: as => by
    unfold charListCompare
    rw [if_neg (lt_irrefl a), if_neg (lt_irrefl a)]
    exact charListCompare_self as

theorem charListCompare_eq_zero :
    ∀ a b : List Char, charListCompare a b = 0 → a = b
  | [], [] => fun _ => rfl
  | [], _ :: _ => fun h => by simp [charListCompare] at h
  | _ :: _, [] => fun h => by simp [charListCompare] at h
  | a :: as, b :: bs => by
    intro h
    unfold charListCompare at h
    rcases lt_trichotomy a b with hab | hab | hab
    · rw [if_pos hab] at h
      exact absurd h (by decide)
    · subst hab
      rw [if_neg (lt_irrefl a), if_neg (lt_irrefl a)] at h
      rw [charListCompare_eq_zero as bs h]
    · rw [if_neg (lt_asymm hab), if_pos hab] at h
      exact absurd h (by decide)

theorem strCompare_total (a b : String) : strCompare a b ≤ 0 ∨ strCompare b a ≤ 0 := by
  unfold strCompare
  have h := charListCompare_neg a.data b.data
  omega

theorem strCompare_trans (a b c : String) (h1 : strCompare a b ≤ 0)
    (h2 : strCompare b c ≤ 0) : strCompare a c ≤ 0 :=
  charListCompare_trans _ _ _ h1 h2

theorem strCompare_antisymm (a b : String) (h1 : strCompare a b ≤ 0)
    (h2 : strCompare b a ≤ 0) : a = b := by
  have hn := charListCompare_neg a.data b.data
  unfold strCompare at h1 h2
  exact String.ext (charListCompare_eq_zero _ _ (by omega))

theorem strCompare_self (a : String) : strCompare a a = 0 :=
  charListCompare_self a.data

/-- C1: over candidates whose truthy counters do not collide (which is what
the unique-counter store invariant guarantees for a well-formed candidate
list), the ranking comparator is total; it is antisymmetric over the
compared keys (the truthy counter and the lowercased label) and transitive
without side conditions; and the ranking stage, a stable sort by this
comparator, keeps candidates the comparator ties (no truthy counter and
equal lowercased labels) in the relative order the disambiguating stage
handed over. -/
theorem C1_comparator_total_order_and_stable :
    (∀ (peek : String → Option Nat) (a b : CmdEntry),
      (truthyCounter peek a ≠ truthyCounter peek b ∨ truthyCounter peek a = none) →
      mruCompare peek a b ≤ 0 ∨ mruCompare peek b a ≤ 0) ∧
    (∀ (peek : String → Option Nat) (a b : CmdEntry),
      mruCompare peek a b ≤ 0 → mruCompare peek b a ≤ 0 →
      truthyCounter peek a = truthyCounter peek b ∧ a.sortLabel = b.sortLabel) ∧
    (∀ (peek : String → Option Nat) (a b c : CmdEntry),
      mruCompare peek a b ≤ 0 → mruCompare peek b c ≤ 0 → mruCompare peek a c ≤ 0) ∧
    (∀ (peek : String → Option Nat) (s : String) (l : List CmdEntry),
      (rankStage peek l).filter
          (fun e => (truthyCounter peek e).isNone && (e.sortLabel == s)) =
        l.filter (fun e => (truthyCounter peek e).isNone && (e.sortLabel == s))) := by
  refine ⟨?_, ?_, ?_, ?_⟩
  · intro peek a b h
    rcases hta : truthyCounter peek a with _ | ca <;>
      rcases htb : truthyCounter peek b with _ | cb
    · rcases strCompare_total a.sortLabel b.sortLabel with hl | hl
      · exact Or.inl (by simp only [mruCompare, hta, htb]; exact hl)
      · exact Or.inr (by simp only [mruCompare, htb, hta]; exact hl)
    · exact Or.inr (by simp only [mruCompare, hta, htb]; decide)
    · exact Or.inl (by simp only [mruCompare, hta, htb]; decide)
    · have hne : ca ≠ cb := by
        rcases h with h | h
        · rw [hta, htb] at h
          intro hc
          exact h (by rw [hc])
        · rw [hta] at h
          exact absurd h (by simp)
      by_cases hgt : ca > cb
      · exact Or.inl (by simp only [mruCompare, hta, htb, if_pos hgt]; decide)
      · have hgt2 : cb > ca := by omega
        exact Or.inr (by simp only [mruCompare, htb, hta, if_pos hgt2]; decide)
  · intro peek a b h1 h2
    rcases hta : truthyCounter peek a with _ | ca <;>
      rcases htb : truthyCounter peek b with _ | cb <;>
      simp only [mruCompare, hta, htb] at h1 h2
    · exact ⟨rfl, strCompare_antisymm _ _ h1 h2⟩
    · exact absurd h1 (by decide)
    · exact absurd h2 (by decide)
    · exfalso
      split_ifs at h1 h2 <;> omega
  · intro peek a b c h1 h2
    rcases hta : truthyCounter peek a with _ | ca <;>
      rcases htb : truthyCounter peek b with _ | cb <;>
      rcases htc : truthyCounter peek c with _ | cc <;>
      simp only [mruCompare, hta, htb, htc] at h1 h2 ⊢
    · exact strCompare_trans _ _ _ h1 h2
    · exact absurd h2 (by decide)
    · exact absurd h1 (by decide)
    · exact absurd h1 (by decide)
    · decide
    · exact absurd h2 (by decide)
    · decide
    · have hab : ca > cb := by
        by_contra hc
        rw [if_neg hc] at h1
        exact absurd h1 (by decide)
      have hbc : cb > cc := by
        by_contra hc
        rw [if_neg hc] at h2
        exact absurd h2 (by decide)
      rw [if_pos (by omega : ca > cc)]
      decide
  · intro peek s l
    refine jsSort_filter_stable (mruCompare peek) _ ?_ l
    intro a b ha hb
    simp only [Bool.and_eq_true, Option.isNone_iff_eq_none, beq_iff_eq] at ha hb
    have hl : a.sortLabel = b.sortLabel := by rw [ha.2, hb.2]
    simp only [mruCompare, ha.1, hb.1, hl, strCompare_self]
    decide

/-- C1 witness: the totality part (hypothesis discharged: both candidates
have no truthy counter) and the transitivity part applied to concrete
counter-free candidates. -/
theorem C1_witness :
    (mruCompare (fun _ => none) c1x c1y ≤ 0 ∨ mruCompare (fun _ => none) c1y c1x ≤ 0) ∧
    mruCompare (fun _ => none) c1x c1z ≤ 0 :=
  ⟨C1_comparator_total_order_and_stable.1 (fun _ => none) c1x c1y (Or.inr rfl),
   C1_comparator_total_order_and_stable.2.2.1 (fun _ => none) c1x c1y c1z
     (by decide) (by decide)⟩

/-- C5: the comparator ranks two candidates by their truthy counters when
both are recorded (higher first), lets a sole recorded counter win, and
falls back to ascending lowercased labels; on the concrete candidates
A (counter 5), B (counter 9), C (no counter, label zeta), D (no counter,
label alpha) the ranked order is B, A, D, C. -/
theorem C5_comparator_policy_and_example :
    (∀ (peek : String → Option Nat) (a b : CmdEntry) (ca cb : Nat),
      truthyCounter peek a = some ca → truthyCounter peek b = some cb →
      (ca > cb → mruCompare peek a b = -1) ∧ (cb > ca → mruCompare peek a b = 1)) ∧
    (∀ (peek : String → Option Nat) (a b : CmdEntry) (ca : Nat),
      truthyCounter peek a = some ca → truthyCounter peek b = none →
      mruCompare peek a b = -1) ∧
    (∀ (peek : String → Option Nat) (a b : CmdEntry) (cb : Nat),
      truthyCounter peek a = none → truthyCounter peek b = some cb →
      mruCompare peek a b = 1) ∧
    (∀ (peek : String → Option Nat) (a b : CmdEntry),
      truthyCounter peek a = none → truthyCounter peek b = none →
      mruCompare peek a b = strCompare a.sortLabel b.sortLabel) ∧
    rankStage c5peek [c5A, c5B, c5C, c5D] = [c5B, c5A, c5D, c5C] := by
  refine ⟨?_, ?_, ?_, ?_, ?_⟩
  · intro peek a b ca cb ha hb
    constructor
    · intro hgt
      simp only [mruCompare, ha, hb, if_pos hgt]
    · intro hgt
      simp only [mruCompare, ha, hb, if_neg (by omega : ¬ ca > cb)]
  · intro peek a b ca ha hb
    simp only [mruCompare, ha, hb]
  · intro peek a b cb ha hb
    simp only [mruCompare, ha, hb]
  · intro peek a b ha hb
    simp only [mruCompare, ha, hb]
  · decide

/-- C5 witness: the both-counters clause applied to the concrete example
candidates B (counter 9) and A (counter 5). -/
theorem C5_witness : mruCompare c5peek c5B c5A = -1 :=
  (C5_comparator_policy_and_example.1 c5peek c5B c5A 9 5 (by decide) (by decide)).1
    (by decide)


theorem disambiguateAux_length :
    ∀ (seen : List String) (l : List CmdEntry),
      (disambiguateAux seen l).length = l.length
  | _, [] => rfl
  | seen, e :: es => by
    unfold disambiguateAux
    by_cases h : clashKey e ∈ seen
    · rw [if_pos h]
      simp [disambiguateAux_length seen es]
    · rw [if_neg h]
      simp [disambiguateAux_length (clashKey e :: seen) es]

theorem disambiguateAux_getElem :
    ∀ (before : List CmdEntry) (seen : List String) (e : CmdEntry)
      (after : List CmdEntry),
      (disambiguateAux seen (before ++ e :: after))[before.length]? =
        some (if clashKey e ∈ seen ∨ clashKey e ∈ before.map clashKey
              then { e with description := some e.commandId } else e)
  | [], seen, e, after => by
    simp only [List.nil_append, List.map_nil, List.not_mem_nil, or_false,
      List.length_nil]
    unfold disambiguateAux
    by_cases h : clashKey e ∈ seen
    · rw [if_pos h, if_pos h]
      exact List.getElem?_cons_zero
    · rw [if_neg h, if_neg h]
      exact List.getElem?_cons_zero
  | x :: bs, seen, e, after => by
    simp only [List.cons_append, List.length_cons, List.map_cons]
    unfold disambiguateAux
    by_cases h : clashKey x ∈ seen
    · rw [if_pos h, List.getElem?_cons_succ, disambiguateAux_getElem bs seen e after]
      refine congrArg some (if_congr ?_ rfl rfl)
      simp only [List.mem_cons]
      constructor
      · intro hc
        tauto
      · intro hc
        rcases hc with hc | hc | hc
        · exact Or.inl hc
        · exact Or.inl (hc ▸ h)
        · exact Or.inr hc
    · rw [if_neg h, List.getElem?_cons_succ,
        disambiguateAux_getElem bs (clashKey x :: seen) e after]
      refine congrArg some (if_congr ?_ rfl rfl)
      simp only [List.mem_cons]
      tauto

/-- C2 counterexample: two candidates with the identical label Save and
distinct commandIds file.save and custom.save; after the disambiguating
stage the first-seen member keeps its description unset (none), refuting
the claim that every member of the clash group, including the first-seen
one, has its description set to its own commandId. -/
theorem C2_counterexample :
    (disambiguate [c2first, c2second]).map (fun e => e.description) =
      [none, some "custom.save"] ∧
    (disambiguate [c2first, c2second]).map (fun e => e.description) ≠
      [some "file.save", some "custom.save"] := by
  decide

/-- C2 (amended): after deduplication, a candidate whose (label, groupLabel)
clash key already occurred earlier in the list gets its description set to
its own commandId, while the first-seen member of each clash group and the
candidates with a unique clash key keep their description unchanged (and
hence unset). -/
theorem C2_amended_disambiguation (before : List CmdEntry) (e : CmdEntry)
    (after : List CmdEntry) :
    (disambiguate (before ++ e :: after)).length = (before ++ e :: after).length ∧
    (disambiguate (before ++ e :: after))[before.length]? =
      some (if clashKey e ∈ before.map clashKey
            then { e with description := some e.commandId } else e) := by
  constructor
  · exact disambiguateAux_length [] _
  · have h := disambiguateAux_getElem before [] e after
    simpa only [List.not_mem_nil, false_or] using h

theorem markOtherCommands_eq (peek : String → Option Nat) :
    ∀ l : List CmdEntry,
      markOtherCommands peek l =
        l.takeWhile (fun e => (truthyCounter peek e).isSome) ++
          (match l.dropWhile (fun e => (truthyCounter peek e).isSome) with
           | [] => []
           | u :: v =>
             { u with showBorder := true, groupLabel := some "other commands" } :: v)
  | [] => rfl
  | e :: es => by
    unfold markOtherCommands
    by_cases h : (truthyCounter peek e).isSome = true
    · rw [if_pos h, markOtherCommands_eq peek es]
      simp [List.takeWhile_cons, List.dropWhile_cons, h]
    · rw [if_neg h]
      simp [List.takeWhile_cons, List.dropWhile_cons, h]

/-- C3 counterexample: on the ranked list [A (counter 9), B (counter 5),
C (no counter)] the middle entry B has a recorded counter, yet the grouping
stage leaves its group label unset: only the first entry is labelled
"recently used", refuting the claim that every subsequent counter-bearing
entry up to the first counter-free one is labelled as well. -/
theorem C3_counterexample :
    rankStage c3peek [c3A, c3B, c3C] = [c3A, c3B, c3C] ∧
    (truthyCounter c3peek c3B).isSome = true ∧
    (groupStage c3peek [c3A, c3B, c3C]).map (fun e => e.groupLabel) =
      [some "recently used", none, some "other commands"] ∧
    (groupStage c3peek [c3A, c3B, c3C]).map (fun e => e.groupLabel) ≠
      [some "recently used", some "recently used", some "other commands"] := by
  decide

/-- C3 (amended): when the first ranked entry has a truthy counter, only
that first entry is labelled "recently used"; the following entries with
counters are left unlabelled; the first subsequent entry without a counter
gets the "other commands" label together with the separator border, and
everything after it is untouched. When every entry lacks a counter (so in
particular the first), the list is returned entirely unchanged. -/
theorem C3_amended_grouping (peek : String → Option Nat) (l : List CmdEntry) :
    ((∀ e ∈ l, truthyCounter peek e = none) → groupStage peek l = l) ∧
    (∀ first rest, l = first :: rest → (truthyCounter peek first).isSome = true →
      groupStage peek l =
        { first with groupLabel := some "recently used" } ::
          (rest.takeWhile (fun e => (truthyCounter peek e).isSome) ++
            (match rest.dropWhile (fun e => (truthyCounter peek e).isSome) with
             | [] => []
             | u :: v =>
               { u with showBorder := true, groupLabel := some "other commands" } :: v))) := by
  constructor
  · intro h
    cases l with
    | nil => rfl
    | cons first rest =>
      have hf : (truthyCounter peek first).isSome = false := by
        rw [h first (List.mem_cons_self first rest)]
        rfl
      simp only [groupStage]
      rw [if_neg (by simp [hf])]
  · intro first rest hl hfirst
    subst hl
    simp only [groupStage]
    rw [if_pos hfirst, markOtherCommands_eq]

/-- C3 witness: the no-counter clause applied to a concrete singleton list
whose entry has no counter. -/
theorem C3_witness : groupStage c3peek [c3C] = [c3C] :=
  (C3_amended_grouping c3peek [c3C]).1 (by decide)

theorem distinctAux_sublist {α : Type} (key : α → String) :
    ∀ (seen : List String) (l : List α), List.Sublist (distinctAux key seen l) l
  | _, [] => List.Sublist.refl _
  | seen, x :: xs => by
    unfold distinctAux
    by_cases h : key x ∈ seen
    · rw [if_pos h]
      exact (distinctAux_sublist key seen xs).cons x
    · rw [if_neg h]
      exact (distinctAux_sublist key (key x :: seen) xs).cons₂ x

theorem distinctAux_keys_nodup {α : Type} (key : α → String) :
    ∀ (seen : List String) (l : List α),
      ((distinctAux key seen l).map key).Nodup ∧
      ∀ k ∈ (distinctAux key seen l).map key, k ∉ seen
  | _, [] => ⟨List.nodup_nil, fun k hk => absurd hk (List.not_mem_nil k)⟩
  | seen, x :: xs => by
    unfold distinctAux
    by_cases h : key x ∈ seen
    · rw [if_pos h]
      exact distinctAux_keys_nodup key seen xs
    · rw [if_neg h]
      obtain ⟨hnd, hns⟩ := distinctAux_keys_nodup key (key x :: seen) xs
      refine ⟨?_, ?_⟩
      · rw [List.map_cons, List.nodup_cons]
        exact ⟨fun hmem => (hns _ hmem) (List.mem_cons_self _ _), hnd⟩
      · intro k hk
        rw [List.map_cons, List.mem_cons] at hk
        rcases hk with hk | hk
        · exact hk ▸ h
        · intro hkseen
          exact (hns k hk) (List.mem_cons_of_mem _ hkseen)

theorem distinctAux_covers {α : Type} (key : α → String) :
    ∀ (seen : List String) (l : List α), ∀ x ∈ l,
      key x ∈ seen ∨ ∃ y ∈ distinctAux key seen l, key y = key x
  | _, [], x, hx => absurd hx (List.not_mem_nil x)
  | seen, z :: zs, x, hx => by
    unfold distinctAux
    by_cases h : key z ∈ seen
    · rw [if_pos h]
      rcases List.mem_cons.mp hx with hx | hx
      · exact Or.inl (hx ▸ h)
      · exact distinctAux_covers key seen zs x hx
    · rw [if_neg h]
      rcases List.mem_cons.mp hx with hx | hx
      · subst hx
        exact Or.inr ⟨x, List.mem_cons_self _ _, rfl⟩
      · rcases distinctAux_covers key (key z :: seen) zs x hx with hc | hc
        · rcases List.mem_cons.mp hc with hc | hc
          · exact Or.inr ⟨z, List.mem_cons_self _ _, hc.symm⟩
          · exact Or.inl hc
        · obtain ⟨y, hy, hky⟩ := hc
          exact Or.inr ⟨y, List.mem_cons_of_mem _ hy, hky⟩

theorem distinctAux_first {α : Type} (key : α → String) :
    ∀ (seen : List String) (l : List α), ∀ y ∈ distinctAux key seen l,
      key y ∉ seen ∧ l.find? (fun z => key z == key y) = some y
  | _, [], y, hy => absurd hy (List.not_mem_nil y)
  | seen, x :: xs, y, hy => by
    unfold distinctAux at hy
    by_cases h : key x ∈ seen
    · rw [if_pos h] at hy
      obtain ⟨hns, hfind⟩ := distinctAux_first key seen xs y hy
      have hb : (key x == key y) = false := by
        simp only [beq_eq_false_iff_ne, ne_eq]
        intro he
        exact hns (he ▸ h)
      refine ⟨hns, ?_⟩
      simp only [List.find?_cons, hb]
      exact hfind
    · rw [if_neg h] at hy
      rcases List.mem_cons.mp hy with hy | hy
      · subst hy
        refine ⟨h, ?_⟩
        simp only [List.find?_cons, beq_self_eq_true]
      · obtain ⟨hns, hfind⟩ := distinctAux_first key (key x :: seen) xs y hy
        have hb : (key x == key y) = false := by
          simp only [beq_eq_false_iff_ne, ne_eq]
          intro he
          exact hns (he ▸ List.mem_cons_self _ _)
        refine ⟨fun hseen => hns (List.mem_cons_of_mem _ hseen), ?_⟩
        simp only [List.find?_cons, hb]
        exact hfind

/-- C4 counterexample: the candidates (label x, no groupLabel, commandId
undefinedy) and (label xundefined, no groupLabel, commandId y) have
different triples, yet their concatenated keys are the same string, so the
second is removed by deduplication - refuting the claim that two candidates
whose triples differ are never collapsed into one. -/
theorem C4_counterexample :
    distinctBy dedupKey [c4first, c4second] = [c4first] ∧
    ¬(c4first.label = c4second.label ∧ c4first.groupLabel = c4second.groupLabel ∧
      c4first.commandId = c4second.commandId) := by
  decide

/-- C4 (amended): deduplication removes a candidate exactly when an earlier
candidate has the same concatenated key label ++ groupLabel ++ commandId
(an unset groupLabel rendering as the string undefined), keeping survivors
in first-seen order: the surviving list is a sublist of the input, its keys
are pairwise distinct, every input candidate has a surviving candidate with
its key, and every survivor is the first input element bearing its key.
Distinct (label, groupLabel, commandId) triples are collapsed exactly when
their concatenations coincide. -/
theorem C4_amended_dedup (l : List CmdEntry) :
    List.Sublist (distinctBy dedupKey l) l ∧
    ((distinctBy dedupKey l).map dedupKey).Nodup ∧
    (∀ x ∈ l, ∃ y ∈ distinctBy dedupKey l, dedupKey y = dedupKey x) ∧
    (∀ y ∈ distinctBy dedupKey l, l.find? (fun z => dedupKey z == dedupKey y) = some y) := by
  refine ⟨distinctAux_sublist _ [] l, (distinctAux_keys_nodup _ [] l).1, ?_, ?_⟩
  · intro x hx
    rcases distinctAux_covers dedupKey [] l x hx with hc | hc
    · exact absurd hc (List.not_mem_nil _)
    · exact hc
  · intro y hy
    exact (distinctAux_first dedupKey [] l y hy).2

/-- C4 witness: the coverage clause applied to a concrete singleton list. -/
theorem C4_witness :
    ∃ y ∈ distinctBy dedupKey [c4first], dedupKey y = dedupKey c4first :=
  (C4_amended_dedup [c4first]).2.2.1 c4first (by decide)

theorem initHistory_inv (capacity : Nat) : HistoryInv capacity (initHistory capacity) := by
  refine ⟨rfl, List.Pairwise.nil, ?_, ?_⟩
  · intro e he
    exact absurd he (List.not_mem_nil e)
  · exact Nat.zero_le capacity

theorem push_preserves_inv {capacity : Nat} {s : HistoryState} (id : String)
    (h : HistoryInv capacity s) : HistoryInv capacity (CommandsHistory.push s id) := by
  obtain ⟨hlim, hpw, hbound, hlen⟩ := h
  refine ⟨hlim, ?_, ?_, ?_⟩
  · refine List.Pairwise.sublist (List.drop_sublist _ _) ?_
    refine (List.pairwise_append).mpr
      ⟨hpw.filter _, List.pairwise_singleton _ _, ?_⟩
    intro a ha b hb
    have hb2 : b = (id, s.counter) := List.mem_singleton.mp hb
    subst hb2
    exact hbound a (List.mem_of_mem_filter ha)
  · intro e he
    have hmem := List.mem_of_mem_drop he
    rcases List.mem_append.mp hmem with hm | hm
    · exact Nat.lt_succ_of_lt (hbound e (List.mem_of_mem_filter hm))
    · have hm2 : e = (id, s.counter) := List.mem_singleton.mp hm
      subst hm2
      exact Nat.lt_succ_self _
  · have h1 : (s.cache.entries.filter (fun e => e.1 != id)).length ≤
        s.cache.entries.length := List.length_filter_le _ _
    show ((s.cache.entries.filter (fun e => e.1 != id) ++ [(id, s.counter)]).drop
        ((s.cache.entries.filter (fun e => e.1 != id) ++ [(id, s.counter)]).length -
          s.cache.limit)).length ≤ capacity
    rw [List.length_drop, List.length_append, List.length_singleton]
    omega

theorem applyPushes_inv {capacity : Nat} {s : HistoryState} (ids : List String)
    (h : HistoryInv capacity s) : HistoryInv capacity (applyPushes s ids) := by
  induction ids generalizing s with
  | nil => exact h
  | cons id rest ih => exact ih (push_preserves_inv id h)

theorem setWithEvicted_evicts_min (c : LRUModel) (k : String) (v : Nat)
    (hpw : c.entries.Pairwise (fun a b => a.2 < b.2))
    (hlen : c.entries.length ≤ c.limit) :
    ∀ e ∈ (c.setWithEvicted k v).2, ∀ e2 ∈ c.entries, e.2 ≤ e2.2 := by
  intro e he e2 he2
  simp only [LRUModel.setWithEvicted] at he
  set tf := c.entries.filter (fun x => x.1 != k) with htf
  have h1 : tf.length ≤ c.entries.length := by
    rw [htf]
    exact List.length_filter_le _ _
  by_cases hd : (tf ++ [(k, v)]).length - c.limit = 0
  · rw [hd, List.take_zero] at he
    exact absurd he (List.not_mem_nil e)
  · have h2 : (tf ++ [(k, v)]).length = tf.length + 1 := by
      rw [List.length_append, List.length_singleton]
    have hd1 : (tf ++ [(k, v)]).length - c.limit = 1 := by omega
    have hfl : tf.length = c.entries.length := by omega
    have hfe : tf = c.entries := by
      rw [htf]
      exact List.Sublist.eq_of_length (List.filter_sublist _) (htf ▸ hfl)
    rw [hd1, hfe] at he
    cases hce : c.entries with
    | nil =>
      rw [hce] at he2
      exact absurd he2 (List.not_mem_nil e2)
    | cons h0 t =>
      rw [hce] at he hpw he2
      have hee : e ∈ [h0] := he
      have hee2 : e = h0 := List.mem_singleton.mp hee
      subst hee2
      rcases List.mem_cons.mp he2 with h2e | h2e
      · subst h2e
        exact Nat.le_refl _
      · exact Nat.le_of_lt (List.rel_of_pairwise_cons hpw h2e)

/-- C6: starting from a fresh history with capacity c, after any sequence
of pushes the store never holds more than c entries, and whenever a further
push evicts an entry, that entry has the smallest counter among the entries
present at that moment. -/
theorem C6_capacity_bound_and_min_eviction (capacity : Nat) (ids : List String)
    (id : String) :
    (applyPushes (initHistory capacity) ids).cache.entries.length ≤ capacity ∧
    (∀ e ∈ ((applyPushes (initHistory capacity) ids).cache.setWithEvicted id
        (applyPushes (initHistory capacity) ids).counter).2,
      ∀ e2 ∈ (applyPushes (initHistory capacity) ids).cache.entries, e.2 ≤ e2.2) := by
  obtain ⟨hlim, hpw, hbound, hlen⟩ := applyPushes_inv ids (initHistory_inv capacity)
  refine ⟨hlen, ?_⟩
  refine setWithEvicted_evicts_min _ id _ hpw ?_
  rw [hlim]
  exact hlen

/-- C6 witness: pushing b into a full capacity-1 store holding a evicts a,
whose counter 1 is minimal. -/
theorem C6_witness : (("a", 1) : String × Nat).2 ≤ (("a", 1) : String × Nat).2 :=
  (C6_capacity_bound_and_min_eviction 1 ["a"] "b").2 ("a", 1) (by decide)
    ("a", 1) (by decide)

theorem sortByValue_of_perm_sorted {l legacy : List (String × Nat)}
    (hsorted : l.Pairwise (fun a b => a.2 < b.2)) (hperm : List.Perm legacy l) :
    sortByValue legacy = l := by
  have htrans : ∀ a b c : String × Nat,
      ((a.2 : Int) - b.2) ≤ 0 → ((b.2 : Int) - c.2) ≤ 0 → ((a.2 : Int) - c.2) ≤ 0 := by
    intro a b c h1 h2
    omega
  have hflip : ∀ a b : String × Nat,
      ¬ ((a.2 : Int) - b.2) ≤ 0 → ((b.2 : Int) - a.2) ≤ 0 := by
    intro a b h
    omega
  have hpair := jsSort_pairwise htrans hflip legacy
  have hperm2 : List.Perm (sortByValue legacy) l :=
    (jsSort_perm _ legacy).trans hperm
  have hne : l.Pairwise (fun a b : String × Nat => a.2 ≠ b.2) :=
    hsorted.imp (fun h => Nat.ne_of_lt h)
  have hne2 : (sortByValue legacy).Pairwise (fun a b : String × Nat => a.2 ≠ b.2) :=
    (hperm2.pairwise_iff (fun h => h.symm)).mpr hne
  have hstrict : (sortByValue legacy).Pairwise (fun a b : String × Nat => a.2 < b.2) := by
    have hcomb := hpair.and hne2
    refine hcomb.imp ?_
    intro a b hab
    omega
  haveI : IsAntisymm (String × Nat) (fun a b => a.2 < b.2) :=
    ⟨fun a b h1 h2 => absurd h2 (by omega)⟩
  exact List.eq_of_perm_of_sorted hperm2 hstrict hsorted

/-- C7: loading the same logical recency history through the legacy
encoding (usesLRU false, entries in any order, re-sorted by counter
ascending) and through the new encoding (usesLRU true, entries already in
recency order, i.e. counter-ascending) yields identical stores, hence
identical results for every subsequent peek and for every subsequent
ranking built on those peeks. -/
theorem C7_legacy_and_lru_load_agree (capacity : Nat) (l legacy : List (String × Nat))
    (hsorted : l.Pairwise (fun a b => a.2 < b.2)) (hperm : List.Perm legacy l) :
    loadEntries capacity false legacy = loadEntries capacity true l ∧
    (∀ id, (loadEntries capacity false legacy).peek id =
      (loadEntries capacity true l).peek id) ∧
    (∀ entries : List CmdEntry,
      rankStage (fun id => (loadEntries capacity false legacy).peek id) entries =
        rankStage (fun id => (loadEntries capacity true l).peek id) entries) := by
  have heq : loadEntries capacity false legacy = loadEntries capacity true l := by
    unfold loadEntries
    rw [if_neg Bool.false_ne_true, if_pos rfl,
      sortByValue_of_perm_sorted hsorted hperm]
  exact ⟨heq, fun id => by rw [heq], fun entries => by rw [heq]⟩

/-- C7 witness: a two-entry history loaded in reversed legacy order and in
recency order produce the same store. -/
theorem C7_witness :
    loadEntries 2 false [("b", 2), ("a", 1)] = loadEntries 2 true [("a", 1), ("b", 2)] :=
  (C7_legacy_and_lru_load_agree 2 [("a", 1), ("b", 2)] [("b", 2), ("a", 1)]
    (by decide) (List.Perm.swap ("a", 1) ("b", 2) [])).1

end CommandsHandlerSpec
